import Mathlib

/-
Verification of the `named` Go library: the schema/link engine
(`LoadLink`, `Link`, `LinkWithPath`, `collectFields`) and the field
accessor operations (`fieldNameOp`, `fieldFullNameOp`, `getCombinedPath`,
`NoValue` / `IsZero`).

The embedding models the parts of Go's data model the linker inspects:
a struct type is a list of fields, each carrying its declared name, its
exported flag, its struct tag (an association list from tag keys to tag
values, mirroring `reflect.StructTag.Get`, which yields "" for an absent
key) and its type.  The only type identity test the source performs is
`field.Type == reflect.TypeOf((*[]string)(nil))`, so the type model keeps
one constructor for that marker type (`pathRef`), one for struct types,
one for interface kinds (whose zero value has no dynamic type, making
`reflect.TypeOf` return nil on it) and one for every other kind.

Byte offsets: in Go each field of a struct instance occupies its own
disjoint byte range, and the linker addresses a field slot by the sum of
the field offsets along the nesting chain.  The embedding replaces the
byte offset sum by the list of field indices along that chain (the index
of the wrapper field at each level, with the index 2 of the `Value` slot
between the levels, exactly following the `baseOffset + field.Offset`
and `+ valueField.Offset` accumulation of the source); distinct chains
address distinct memory in Go, and distinct index lists are distinct
addresses here.
-/

namespace Named

mutual

inductive GoType : Type where
  | pathRef : GoType
  | prim : String → GoType
  | iface : String → GoType
  | strct : List GoField → GoType

inductive GoField : Type where
  | mk : String → Bool → List (String × String) → GoType → GoField

end

def GoField.name : GoField → String
  | .mk n _ _ _ => n

def GoField.exported : GoField → Bool
  | .mk _ e _ _ => e

def GoField.tag : GoField → List (String × String)
  | .mk _ _ t _ => t

def GoField.type : GoField → GoType
  | .mk _ _ _ ty => ty

/-- Model of `reflect.StructTag.Get`: the value stored under `key`,
or the empty string when the key is absent. -/
def tagGet (tag : List (String × String)) (key : String) : String :=
  match tag.find? (fun p => p.1 == key) with
  | some p => p.2
  | none => ""

/-- Model of `strings.Split(s, ",")[0]`: the text before the first comma
(the whole string when it holds no comma). -/
def tagPrimary (s : String) : String :=
  String.mk (s.data.takeWhile (fun c => c ≠ ','))

/-- Effective field name, from `collectFields`: the tag's primary
component when non-empty, else the declared field name. -/
def effName (tagKey : String) (f : GoField) : String :=
  let n := tagPrimary (tagGet f.tag tagKey)
  if n = "" then f.name else n

/-- The structural wrapper test of `collectFields`:
`field.Type.Kind() == reflect.Struct && field.Type.NumField() > 0` and the
first field is named `path` with type `*[]string`. -/
def isWrapperShape : GoType → Bool
  | .strct (f0 :: _) =>
      (match f0.type with | .pathRef => true | _ => false) && f0.name == "path"
  | _ => false

/-- The nested recursion test of `collectFields`:
`field.Type.NumField() >= 3`, field 2 is named `Value` and is a struct
kind; returns that struct type. -/
def nestedValue : GoType → Option GoType
  | .strct (_ :: _ :: f2 :: _) =>
      if f2.name == "Value" then
        match f2.type with
        | .strct gs => some (.strct gs)
        | _ => none
      else none
  | _ => none

/-- One collected field of a schema (`fieldInfo` in the source); the
heap-allocated `*[]string` is represented by its contents, and the byte
offset by the index chain that produces it. -/
structure fieldInfo where
  pathPtr : List String
  offset : List Nat
  deriving DecidableEq, Repr

theorem GoField.sizeOf_type_lt (f : GoField) : sizeOf f.type < sizeOf f := by
  cases f with
  | mk n e t ty => simp [GoField.type]

theorem nestedValue_sizeOf {t vt : GoType} (h : nestedValue t = some vt) :
    sizeOf vt < sizeOf t := by
  match t with
  | .pathRef => simp [nestedValue] at h
  | .prim s => simp [nestedValue] at h
  | .iface s => simp [nestedValue] at h
  | .strct [] => simp [nestedValue] at h
  | .strct [f0] => simp [nestedValue] at h
  | .strct [f0, f1] => simp [nestedValue] at h
  | .strct (f0 :: f1 :: f2 :: rest) =>
      simp only [nestedValue] at h
      split at h
      · split at h
        · cases h
          have h2 := GoField.sizeOf_type_lt f2
          rename_i hty
          rw [hty] at h2
          have h3 : sizeOf f2 < sizeOf (GoType.strct (f0 :: f1 :: f2 :: rest)) := by
            simp
            omega
          exact Nat.lt_trans h2 h3
        · cases h
      · cases h

mutual

/-- Model of `collectFields` from the source: recursively collects all
wrapper fields with absolute offsets, building hierarchical paths. -/
def collectFields (t : GoType) (tagKey : String) (baseOffset : List Nat)
    (parentPath : List String) : List fieldInfo :=
  match t with
  | .strct fs => collectFieldsList fs 0 tagKey baseOffset parentPath
  | _ => []
termination_by sizeOf t

/-- The field loop of `collectFields`, with `i` the index of the first
field of `fs` within the enclosing struct. -/
def collectFieldsList (fs : List GoField) (i : Nat) (tagKey : String)
    (baseOffset : List Nat) (parentPath : List String) : List fieldInfo :=
  match fs with
  | [] => []
  | f :: rest =>
      (if f.exported = false then []
       else if tagPrimary (tagGet f.tag tagKey) = "-" then []
       else if isWrapperShape f.type then
         let n := effName tagKey f
         let currentPath := parentPath ++ [n]
         { pathPtr := currentPath, offset := baseOffset ++ [i] } ::
           (match h : nestedValue f.type with
            | some vt => collectFields vt tagKey (baseOffset ++ [i, 2]) currentPath
            | none => [])
       else []) ++ collectFieldsList rest (i + 1) tagKey baseOffset parentPath
termination_by sizeOf fs
decreasing_by
  all_goals first
  | (have h1 := nestedValue_sizeOf h
     have h2 := GoField.sizeOf_type_lt f
     have h3 : sizeOf f < sizeOf (f :: rest) := by simp <;> omega
     omega)
  | (simp <;> omega)

end

/-- One type's schema (`schema` in the source). -/
structure schema where
  fields : List fieldInfo
  TagKey : String
  deriving DecidableEq, Repr

/-- The process-wide schema cache `cachedSchemaMap`, keyed by runtime type
identity (`typeID`, abstracted as a natural number).  An association list
with the most recent insertion first models the map, insertion being the
map assignment `cachedSchemaMap[typeID] = sch`. -/
abbrev Cache := List (Nat × schema)

def cacheInsert (typeID : Nat) (sch : schema) (c : Cache) : Cache :=
  (typeID, sch) :: c

def cacheLookup (c : Cache) (typeID : Nat) : Option schema :=
  match c.find? (fun p => p.1 == typeID) with
  | some p => some p.2
  | none => none

/-- Result of a Go call that may panic. -/
inductive GoOutcome (α : Type) where
  | ok : α → GoOutcome α
  | panics : String → GoOutcome α
  deriving DecidableEq, Repr

/-- Model of `reflect.TypeOf(zero)` for `var zero T`: the type itself for
every non-interface type; for an interface type the zero value is a nil
interface, on which `reflect.TypeOf` returns nil (`none`). -/
def reflectTypeOfZero : GoType → Option GoType
  | .iface s => none
  | t => some t

/-- Model of `LoadLink[T](tagKey)`.  `ok (err?, c)` pairs the returned
error with the resulting cache; `panics` models a runtime panic: for an
interface type `T`, `tVal` is nil and `tVal.Kind()` dereferences a nil
interface. -/
def LoadLink (t : GoType) (tagKey : String) (typeID : Nat) (c : Cache) :
    GoOutcome (Option String × Cache) :=
  match reflectTypeOfZero t with
  | none => .panics "runtime error: invalid memory address or nil pointer dereference"
  | some tVal =>
      match tVal with
      | .strct fs =>
          .ok (none,
            cacheInsert typeID
              { fields := collectFields (.strct fs) tagKey [] [],
                TagKey := tagKey } c)
      | _ => .ok (some "CacheSchema: T must be a struct type", c)

/-- The memory of one wrapper field slot: the two pointer slots of
`fieldHeader` (`path`, `parentPath`), plus `value` abstracting the bytes
of the user payload `Value`. -/
structure Slot where
  path : Option (List String)
  parentPath : Option (List String)
  value : Nat
  deriving DecidableEq, Repr

/-- A struct instance's memory: the slot at each field address.  An
address is the index chain standing for the byte offset. -/
def Memory := List Nat → Slot

/-- One write of the link loop:
`(*fieldHeader)(unsafe.Pointer(uintptr(ptr) + field.offset)).path = field.pathPtr`;
only the `path` pointer of the addressed slot changes. -/
def writeSlotPath (m : Memory) (a : List Nat) (p : List String) : Memory :=
  fun b => if b = a then { m b with path := some p } else m b

/-- The write loop shared by `Link` and `LinkWithPath`. -/
def linkFields : List fieldInfo → Memory → Memory
  | [], m => m
  | e :: rest, m => linkFields rest (writeSlotPath m e.offset e.pathPtr)

/-- Model of `Link[T](s)`: look the schema up by type identity; when
present perform the offset writes and return true, otherwise return false
leaving the instance untouched. -/
def Link (c : Cache) (typeID : Nat) (m : Memory) : Bool × Memory :=
  match cacheLookup c typeID with
  | none => (false, m)
  | some sch => (true, linkFields sch.fields m)

/-- Model of `LinkWithPath[T](s, path)` as the source stands: the body
performs exactly the writes of `Link`; the prefix assignment
`fp.parentPath = &path` is commented out (the comment even swallowed the
loop's closing brace), so the supplied path is ignored. -/
def LinkWithPath (c : Cache) (typeID : Nat) (path : List String) (m : Memory) :
    Bool × Memory :=
  match cacheLookup c typeID with
  | none => (false, m)
  | some sch => (true, linkFields sch.fields m)

def DefaulyFullNameSeparator : String := "."

/-- Model of `fieldNameOp`: empty when the pointer is nil or the slice is
empty, else the last path component. -/
def fieldNameOp (pathPtr : Option (List String)) : String :=
  match pathPtr with
  | none => ""
  | some p => if p.length = 0 then "" else p.getLastD ""

/-- Go's `strings.Join` / the manual byte-buffer joins of the source. -/
def goJoin (sep : String) : List String → String
  | [] => ""
  | x :: xs => xs.foldl (fun acc e => acc ++ sep ++ e) x

/-- Model of `fieldFullNameOp`.  The byte-buffer appends of the source
produce the elements of the slice (parent slice first when present and
non-empty) interleaved with the separator, i.e. `goJoin`.  (For a non-nil
but empty `path` with no parent the source would panic on a negative
buffer capacity; the linker never produces that state, every stored path
being non-empty.) -/
def fieldFullNameOp (pathPtr parentPathPtr : Option (List String))
    (separator : String) : String :=
  let sep := if separator = "" then DefaulyFullNameSeparator else separator
  match pathPtr with
  | none => ""
  | some p =>
      match parentPathPtr with
      | none => goJoin sep p
      | some par =>
          if par.length = 0 then goJoin sep p
          else goJoin sep (par ++ p)

/-- Model of `getCombinedPath`: nil for a nil path; the path itself when
no parent path was assigned; otherwise parent path followed by path. -/
def getCombinedPath (path parent : Option (List String)) :
    Option (List String) :=
  match path with
  | none => none
  | some p =>
      match parent with
      | none => some p
      | some par => some (par ++ p)

/-- `Field.Name()` read on the slot at address `a`. -/
def NameAt (m : Memory) (a : List Nat) : String :=
  fieldNameOp (m a).path

/-- `Field.FullName(separator)` read on the slot at address `a`. -/
def FullNameAt (m : Memory) (a : List Nat) (separator : String) : String :=
  fieldFullNameOp (m a).path (m a).parentPath separator

/-- `Field.Path()` read on the slot at address `a`. -/
def PathAt (m : Memory) (a : List Nat) : Option (List String) :=
  getCombinedPath (m a).path (m a).parentPath

/-- A memory in which no field has been linked yet: both header pointers
are nil in every slot (the state of every instance never passed to the
linker, the header fields being unexported and set by nobody else). -/
def Unlinked (m : Memory) : Prop :=
  ∀ a, (m a).path = none ∧ (m a).parentPath = none

/-- Model of `Field.NoValue` for the comparable wrapper:
`var zero T; return f.Value == zero`; `zero` is the zero value of `T`. -/
def fieldNoValue {α : Type} [DecidableEq α] (value zero : α) : Bool :=
  decide (value = zero)

/-- Model of `Field.IsZero`: `return f.NoValue()`. -/
def fieldIsZero {α : Type} [DecidableEq α] (value zero : α) : Bool :=
  fieldNoValue value zero

/-- A Go slice value: `none` is the nil slice (the zero value of every
slice type), `some l` a non-nil slice holding the elements `l`; a non-nil
slice of length zero is distinct from the nil slice. -/
abbrev GoSlice (E : Type) := Option (List E)

/-- The zero value of a Go slice type: the nil slice. -/
def goSliceZero {E : Type} : GoSlice E := none

/-- Go's `len` on a slice: 0 on nil. -/
def goSliceLen {E : Type} : GoSlice E → Nat
  | none => 0
  | some l => l.length

/-- Model of `FieldSlice.NoValue`: `return len(f.Value) == 0`. -/
def fieldSliceNoValue {E : Type} (v : GoSlice E) : Bool :=
  goSliceLen v == 0

/-- Model of `FieldSlice.IsZero`: `return f.NoValue()`. -/
def fieldSliceIsZero {E : Type} (v : GoSlice E) : Bool :=
  fieldSliceNoValue v

def wrapTy (payload : GoType) : GoType :=
  .strct [ .mk "path" false [] .pathRef, .mk "parentPath" false [] .pathRef,
           .mk "Value" true [] payload ]

def SampleTy : GoType :=
  .strct [ .mk "A" true [("json","a")] (wrapTy (.prim "int")),
           .mk "L" true [("json","-")] (wrapTy (.prim "int")),
           .mk "m" false [] (wrapTy (.prim "int")) ]

/-- The base offset of the scan reached after descending through every
wrapper field of the chain `c` and its `Value` slot (index 2). -/
def evenBase : List Nat → List Nat
  | [] => []
  | j :: c => j :: 2 :: evenBase c

/-- The address of the wrapper field reached by the non-empty chain `c`:
the field index at each level with the `Value` index 2 between levels,
mirroring the `baseOffset + field.Offset` accumulation of the scan. -/
def chainOff : List Nat → List Nat
  | [] => []
  | [j] => [j]
  | j :: k :: c => j :: 2 :: chainOff (k :: c)

/-- A field the scan includes: exported, tag primary not the sentinel,
wrapper shaped. -/
def includedB (tagKey : String) (f : GoField) : Bool :=
  f.exported && (tagPrimary (tagGet f.tag tagKey) != "-") && isWrapperShape f.type

/-- The chain `c` of field indices denotes a wrapper field the scan of
`t` collects: every link an included wrapper field, the scan descending
through the nested `Value` struct between links. -/
def chainIncl (tagKey : String) : GoType → List Nat → Bool
  | _, [] => false
  | t, j :: c =>
      match t with
      | .strct fs =>
          match fs.get? j with
          | some f =>
              includedB tagKey f &&
                (match c with
                 | [] => true
                 | _ :: _ =>
                     match nestedValue f.type with
                     | some vt => chainIncl tagKey vt c
                     | none => false)
          | none => false
      | _ => false

/-- The path segments the scan assigns along the chain `c`. -/
def chainNames (tagKey : String) : GoType → List Nat → List String
  | _, [] => []
  | t, j :: c =>
      match t with
      | .strct fs =>
          match fs.get? j with
          | some f =>
              effName tagKey f ::
                (match nestedValue f.type with
                 | some vt => chainNames tagKey vt c
                 | none => [])
          | none => []
      | _ => []

/-- The scan of `t` reaches the struct sitting behind the chain `c`:
every link an included wrapper field whose `Value` slot is a struct. -/
def reachesB (tagKey : String) : GoType → List Nat → Bool
  | _, [] => true
  | t, j :: c =>
      match t with
      | .strct fs =>
          match fs.get? j with
          | some f =>
              includedB tagKey f &&
                (match nestedValue f.type with
                 | some vt => reachesB tagKey vt c
                 | none => false)
          | none => false
      | _ => false

/-- The struct type behind the chain `c` of wrapper fields. -/
def structAt : GoType → List Nat → Option GoType
  | t, [] => some t
  | t, j :: c =>
      match t with
      | .strct fs =>
          match fs.get? j with
          | some f =>
              match nestedValue f.type with
              | some vt => structAt vt c
              | none => none
          | none => none
      | _ => none

mutual

/-- Every declared field name anywhere in `t` is non-empty, as Go
guarantees for every declared struct field (names are identifiers). -/
def GoType.wellNamedB : GoType → Bool
  | .strct fs => wellNamedFieldsB fs
  | _ => true
termination_by t => sizeOf t

def wellNamedFieldsB : List GoField → Bool
  | [] => true
  | f :: rest =>
      (f.name != "") && GoType.wellNamedB f.type && wellNamedFieldsB rest
termination_by fs => sizeOf fs
decreasing_by
  all_goals first
  | (have h2 := GoField.sizeOf_type_lt f
     have h3 : sizeOf f < sizeOf (f :: rest) := by simp <;> omega
     omega)
  | (simp <;> omega)

end

/-- The content the link loop leaves in the path slot at `a`: the last
collected entry writing to `a`, if any. -/
def lastWriteAt : List fieldInfo → List Nat → Option (List String)
  | [], _ => none
  | e :: rest, a =>
      match lastWriteAt rest a with
      | some p => some p
      | none => if e.offset = a then some e.pathPtr else none

/-- The embedding of the three-level test type `Level1`. -/
def Level3Ty : GoType :=
  .strct [ .mk "Deep" true [("json", "deep")] (wrapTy (.prim "int")) ]

def Level2Ty : GoType :=
  .strct [ .mk "Mid" true [("json", "mid")] (wrapTy Level3Ty) ]

def Level1Ty : GoType :=
  .strct [ .mk "Top" true [("json", "top")] (wrapTy Level2Ty) ]

/-- A struct type with a single tagged wrapper field. -/
def OneFieldTy : GoType :=
  .strct [ .mk "F" true [("json", "f")] (wrapTy (.prim "int")) ]

/-- A fresh (zero-valued) instance: nil header pointers everywhere. -/
def freshMemory : Memory :=
  fun _ => { path := none, parentPath := none, value := 0 }

/-- An instance carrying a non-zero payload in every slot. -/
def exMemory : Memory :=
  fun _ => { path := none, parentPath := none, value := 7 }

/-- A struct type whose single wrapper field carries no tag. -/
def UntaggedTy : GoType :=
  .strct [ .mk "J" true [] (wrapTy (.prim "int")) ]

/-- A struct type with an included field and an opted-out (`-`) field
whose payload holds further wrapper fields. -/
def DashNestedTy : GoType :=
  .strct [ .mk "A" true [("json", "a")] (wrapTy (.prim "int")),
           .mk "B" true [("json", "-")] (wrapTy Level3Ty) ]

/-- The cache `LoadLink OneFieldTy "json" 7` builds from the empty cache. -/
def exC3Cache : Cache :=
  [(7, { fields := [{ pathPtr := ["f"], offset := [0] }], TagKey := "json" })]

/-- The cache `LoadLink UntaggedTy "json" 9` builds from the empty cache. -/
def exC9Cache : Cache :=
  [(9, { fields := [{ pathPtr := ["J"], offset := [0] }], TagKey := "json" })]

/-- The cache `LoadLink SampleTy "json" 1` builds from the empty cache. -/
def exC1Cache : Cache :=
  [(1, { fields := [{ pathPtr := ["a"], offset := [0] }], TagKey := "json" })]

/-- The cache `LoadLink Level1Ty "json" 2` builds from the empty cache. -/
def exC2Cache : Cache :=
  [(2, { fields := [{ pathPtr := ["top"], offset := [0] },
                    { pathPtr := ["top", "mid"], offset := [0, 2, 0] },
                    { pathPtr := ["top", "mid", "deep"],
                      offset := [0, 2, 0, 2, 0] }], TagKey := "json" })]

/-- The cache `LoadLink DashNestedTy "json" 4` builds from the empty cache. -/
def exC4Cache : Cache :=
  [(4, { fields := [{ pathPtr := ["a"], offset := [0] }], TagKey := "json" })]

/-- A registered schema for `OneFieldTy`, as `LoadLink` builds it. -/
def exSchema : schema := { fields := [{ pathPtr := ["f"], offset := [0] }], TagKey := "json" }

/-- A cache holding `exSchema` under type identity 1. -/
def exCache : Cache := [(1, exSchema)]

theorem linkFields_apply (l : List fieldInfo) (m : Memory) (a : List Nat) :
    (linkFields l m) a =
      { path := match lastWriteAt l a with
                | some p => some p
                | none => (m a).path,
        parentPath := (m a).parentPath,
        value := (m a).value } := by
  induction l generalizing m with
  | nil => simp [linkFields, lastWriteAt]
  | cons e rest ih =>
      simp only [linkFields, lastWriteAt]
      rw [ih]
      cases hlw : lastWriteAt rest a with
      | some p =>
          by_cases hoff : a = e.offset <;> simp [writeSlotPath, hoff]
      | none =>
          by_cases hoff : a = e.offset
          · subst hoff
            simp [writeSlotPath]
          · have hoff2 : ¬ (e.offset = a) := fun hh => hoff hh.symm
            simp [writeSlotPath, hoff, hoff2]

theorem lastWriteAt_mem {l : List fieldInfo} {a : List Nat} {p : List String}
    (h : lastWriteAt l a = some p) :
    ∃ e, e ∈ l ∧ e.offset = a ∧ e.pathPtr = p := by
  induction l with
  | nil => simp [lastWriteAt] at h
  | cons e rest ih =>
      simp only [lastWriteAt] at h
      cases hlw : lastWriteAt rest a with
      | some q =>
          rw [hlw] at h
          obtain ⟨e', he', hoff, hpath⟩ := ih (by rw [hlw, ← h])
          exact ⟨e', List.mem_cons_of_mem _ he', hoff, hpath⟩
      | none =>
          rw [hlw] at h
          by_cases hoff : e.offset = a
          · rw [if_pos hoff] at h
            exact ⟨e, List.mem_cons_self _ _, hoff, Option.some.inj h⟩
          · rw [if_neg hoff] at h
            cases h

theorem lastWriteAt_eq_none {l : List fieldInfo} {a : List Nat}
    (h : ∀ e ∈ l, e.offset ≠ a) : lastWriteAt l a = none := by
  induction l with
  | nil => simp [lastWriteAt]
  | cons e rest ih =>
      simp only [lastWriteAt]
      rw [ih (fun e' he' => h e' (List.mem_cons_of_mem _ he'))]
      rw [if_neg (h e (List.mem_cons_self _ _))]

theorem lastWriteAt_isSome {l : List fieldInfo} {a : List Nat} {e : fieldInfo}
    (he : e ∈ l) (hoff : e.offset = a) : ∃ p, lastWriteAt l a = some p := by
  induction l with
  | nil => cases he
  | cons e' rest ih =>
      simp only [lastWriteAt]
      cases hlw2 : lastWriteAt rest a with
      | some q => exact ⟨q, rfl⟩
      | none =>
          cases List.mem_cons.mp he with
          | inl hh =>
              subst hh
              rw [if_pos hoff]
              exact ⟨e.pathPtr, rfl⟩
          | inr hh =>
              obtain ⟨p, hp⟩ := ih hh
              rw [hlw2] at hp
              cases hp

theorem sizeOf_get? {fs : List GoField} {j : Nat} {f : GoField}
    (h : fs.get? j = some f) : sizeOf f < sizeOf fs := by
  induction fs generalizing j with
  | nil => cases j <;> cases h
  | cons g rest ih =>
      cases j with
      | zero =>
          simp only [List.get?] at h
          injection h with hh
          subst hh
          simp
          omega
      | succ j' =>
          simp only [List.get?] at h
          have := ih h
          simp
          omega

theorem collectFieldsList_mem {fs : List GoField} {i : Nat} {tagKey : String}
    {base : List Nat} {parent : List String} {e : fieldInfo}
    (h : e ∈ collectFieldsList fs i tagKey base parent) :
    ∃ j f, fs.get? j = some f ∧ includedB tagKey f = true ∧
      ((e.pathPtr = parent ++ [effName tagKey f] ∧ e.offset = base ++ [i + j]) ∨
       (∃ vt, nestedValue f.type = some vt ∧
          e ∈ collectFields vt tagKey (base ++ [i + j, 2])
                (parent ++ [effName tagKey f]))) := by
  induction fs generalizing i with
  | nil => simp [collectFieldsList] at h
  | cons f rest ih =>
      rw [collectFieldsList] at h
      rcases List.mem_append.mp h with hleft | hright
      · by_cases hexp : f.exported = false
        · rw [if_pos hexp] at hleft
          cases hleft
        · rw [if_neg hexp] at hleft
          by_cases hdash : tagPrimary (tagGet f.tag tagKey) = "-"
          · rw [if_pos hdash] at hleft
            cases hleft
          · rw [if_neg hdash] at hleft
            by_cases hwrap : isWrapperShape f.type = true
            · rw [if_pos hwrap] at hleft
              have hinc : includedB tagKey f = true := by
                simp [includedB, hwrap]
                constructor
                · revert hexp
                  cases f.exported <;> simp
                · exact hdash
              rcases List.mem_cons.mp hleft with hhead | htail
              · refine ⟨0, f, by simp, hinc, Or.inl ?_⟩
                subst hhead
                simp
              · cases hnv : nestedValue f.type with
                | some vt =>
                    rw [hnv] at htail
                    exact ⟨0, f, by simp, hinc, Or.inr ⟨vt, hnv, htail⟩⟩
                | none =>
                    rw [hnv] at htail
                    cases htail
            · rw [if_neg hwrap] at hleft
              cases hleft
      · obtain ⟨j, f, hget, hinc, hcase⟩ := ih hright
        refine ⟨j + 1, f, by simpa using hget, hinc, ?_⟩
        have harith : i + (j + 1) = i + 1 + j := by omega
        rw [harith]
        exact hcase

theorem includedB_props {tagKey : String} {f : GoField}
    (h : includedB tagKey f = true) :
    f.exported = true ∧ ¬ (tagPrimary (tagGet f.tag tagKey) = "-") ∧
      isWrapperShape f.type = true := by
  simp only [includedB, Bool.and_eq_true, bne_iff_ne, ne_eq] at h
  exact ⟨h.1.1, h.1.2, h.2⟩

theorem collectFieldsList_mem_top {fs : List GoField} {j : Nat} {f : GoField}
    {tagKey : String} (hget : fs.get? j = some f)
    (hinc : includedB tagKey f = true) (i : Nat) (base : List Nat)
    (parent : List String) :
    ({ pathPtr := parent ++ [effName tagKey f],
       offset := base ++ [i + j] } : fieldInfo)
      ∈ collectFieldsList fs i tagKey base parent := by
  induction fs generalizing i j with
  | nil => cases j <;> cases hget
  | cons g rest ih =>
      rw [collectFieldsList]
      cases j with
      | zero =>
          simp only [List.get?] at hget
          injection hget with hg
          subst hg
          apply List.mem_append_left
          obtain ⟨hexp1, hdash, hwrap⟩ := includedB_props hinc
          rw [if_neg (by simp [hexp1]), if_neg hdash, if_pos hwrap]
          exact List.mem_cons_self _ _
      | succ j' =>
          simp only [List.get?] at hget
          apply List.mem_append_right
          have harith : i + (j' + 1) = (i + 1) + j' := by omega
          rw [harith]
          exact ih hget (i + 1)

theorem collectFieldsList_mem_nested {fs : List GoField} {j : Nat}
    {f : GoField} {tagKey : String} {vt : GoType} {e : fieldInfo}
    (hget : fs.get? j = some f) (hinc : includedB tagKey f = true)
    (hnv : nestedValue f.type = some vt) (i : Nat) (base : List Nat)
    (parent : List String)
    (he : e ∈ collectFields vt tagKey (base ++ [i + j, 2])
            (parent ++ [effName tagKey f])) :
    e ∈ collectFieldsList fs i tagKey base parent := by
  induction fs generalizing i j with
  | nil => cases j <;> cases hget
  | cons g rest ih =>
      rw [collectFieldsList]
      cases j with
      | zero =>
          simp only [List.get?] at hget
          injection hget with hg
          subst hg
          apply List.mem_append_left
          obtain ⟨hexp1, hdash, hwrap⟩ := includedB_props hinc
          rw [if_neg (by simp [hexp1]), if_neg hdash, if_pos hwrap]
          apply List.mem_cons_of_mem
          rw [hnv]
          simpa using he
      | succ j' =>
          simp only [List.get?] at hget
          apply List.mem_append_right
          have harith : (i + 1) + j' = i + (j' + 1) := by omega
          exact ih hget (i + 1) (by rw [harith]; exact he)

theorem chainOff_inj : ∀ (c d : List Nat), c ≠ [] → d ≠ [] →
    chainOff c = chainOff d → c = d := by
  intro c
  induction c with
  | nil => intro d hc _ _; exact absurd rfl hc
  | cons j c' ihc =>
      intro d _ hd h
      cases d with
      | nil => exact absurd rfl hd
      | cons j' d' =>
          cases c' with
          | nil =>
              cases d' with
              | nil =>
                  simp only [chainOff] at h
                  injection h with h1 _
                  rw [h1]
              | cons k' d'' =>
                  simp only [chainOff] at h
                  injection h with h1 h2
                  simp at h2
          | cons k c'' =>
              cases d' with
              | nil =>
                  simp only [chainOff] at h
                  injection h with h1 h2
                  simp at h2
              | cons k' d'' =>
                  simp only [chainOff] at h
                  injection h with h1 h2
                  injection h2 with _ h3
                  have hrec := ihc (k' :: d'') (by simp) (by simp) h3
                  rw [h1, hrec]

theorem chainIncl_cons {tagKey : String} {fs : List GoField} {j : Nat}
    {c : List Nat} (h : chainIncl tagKey (.strct fs) (j :: c) = true) :
    ∃ f, fs.get? j = some f ∧ includedB tagKey f = true ∧
      (c = [] ∨ (c ≠ [] ∧ ∃ vt, nestedValue f.type = some vt ∧
        chainIncl tagKey vt c = true)) := by
  simp only [chainIncl] at h
  split at h
  · rename_i f hget
    rw [Bool.and_eq_true] at h
    refine ⟨f, hget, h.1, ?_⟩
    cases c with
    | nil => exact Or.inl rfl
    | cons k c' =>
        refine Or.inr ⟨by simp, ?_⟩
        have h2 := h.2
        cases hnv : nestedValue f.type with
        | some vt =>
            rw [hnv] at h2
            exact ⟨vt, rfl, h2⟩
        | none =>
            rw [hnv] at h2
            simp at h2
  · cases h

theorem chainIncl_build {tagKey : String} {fs : List GoField} {j : Nat}
    {c : List Nat} {f : GoField} (hget : fs.get? j = some f)
    (hinc : includedB tagKey f = true)
    (hc : c = [] ∨ (∃ vt, nestedValue f.type = some vt ∧
            chainIncl tagKey vt c = true)) :
    chainIncl tagKey (.strct fs) (j :: c) = true := by
  simp only [chainIncl]
  rw [hget]
  simp only [Bool.and_eq_true]
  refine ⟨hinc, ?_⟩
  cases hc with
  | inl hnil => subst hnil; rfl
  | inr hex =>
      obtain ⟨vt, hnv, hrec⟩ := hex
      cases c with
      | nil => rfl
      | cons k c' => rw [hnv]; exact hrec

theorem chainNames_cons {tagKey : String} {fs : List GoField} {j : Nat}
    {c : List Nat} {f : GoField} (hget : fs.get? j = some f) :
    chainNames tagKey (.strct fs) (j :: c) =
      effName tagKey f ::
        (match nestedValue f.type with
         | some vt => chainNames tagKey vt c
         | none => []) := by
  simp only [chainNames]
  rw [hget]

theorem chainNames_nil {tagKey : String} (t : GoType) :
    chainNames tagKey t [] = [] := by
  simp only [chainNames]

theorem reachesB_cons {tagKey : String} {fs : List GoField} {j : Nat}
    {c : List Nat} (h : reachesB tagKey (.strct fs) (j :: c) = true) :
    ∃ f vt, fs.get? j = some f ∧ includedB tagKey f = true ∧
      nestedValue f.type = some vt ∧ reachesB tagKey vt c = true := by
  simp only [reachesB] at h
  split at h
  · rename_i f hget
    rw [Bool.and_eq_true] at h
    have h2 := h.2
    split at h2
    · rename_i vt hnv
      exact ⟨f, vt, hget, h.1, hnv, h2⟩
    · cases h2
  · cases h

theorem structAt_cons {fs : List GoField} {j : Nat} {c : List Nat}
    {f : GoField} {vt : GoType} (hget : fs.get? j = some f)
    (hnv : nestedValue f.type = some vt) :
    structAt (.strct fs) (j :: c) = structAt vt c := by
  simp only [structAt, hget, hnv]

theorem collectFields_mem_aux :
    ∀ (n : Nat) (t : GoType) (tagKey : String) (base : List Nat)
      (parent : List String) (e : fieldInfo), sizeOf t ≤ n →
      e ∈ collectFields t tagKey base parent →
      ∃ cc, cc ≠ [] ∧ chainIncl tagKey t cc = true ∧
        e.offset = base ++ chainOff cc ∧
        e.pathPtr = parent ++ chainNames tagKey t cc := by
  intro n
  induction n with
  | zero =>
      intro t tagKey base parent e hsz he
      cases t <;> simp at hsz
  | succ n ihn =>
      intro t tagKey base parent e hsz he
      cases t with
      | pathRef => simp [collectFields] at he
      | prim s => simp [collectFields] at he
      | iface s => simp [collectFields] at he
      | strct fs =>
          rw [collectFields] at he
          obtain ⟨j, f, hget, hinc, hcase⟩ := collectFieldsList_mem he
          cases hcase with
          | inl htop =>
              refine ⟨[j], by simp, ?_, ?_, ?_⟩
              · exact chainIncl_build hget hinc (Or.inl rfl)
              · rw [htop.2]
                simp [chainOff]
              · rw [htop.1, chainNames_cons hget]
                cases hnv : nestedValue f.type <;> simp [chainNames_nil]
          | inr hnest =>
              obtain ⟨vt, hnv, hein⟩ := hnest
              have hszvt : sizeOf vt ≤ n := by
                have h1 := nestedValue_sizeOf hnv
                have h2 := GoField.sizeOf_type_lt f
                have h3 := sizeOf_get? hget
                have h4 : sizeOf (GoType.strct fs) = 1 + sizeOf fs := by simp
                omega
              obtain ⟨cc, hcc, hincl, hoff, hnm⟩ :=
                ihn vt tagKey (base ++ [0 + j, 2]) (parent ++ [effName tagKey f])
                  e hszvt hein
              refine ⟨j :: cc, by simp, ?_, ?_, ?_⟩
              · exact chainIncl_build hget hinc (Or.inr ⟨vt, hnv, hincl⟩)
              · rw [hoff]
                cases cc with
                | nil => exact absurd rfl hcc
                | cons k cs => simp [chainOff]
              · rw [hnm, chainNames_cons hget, hnv]
                simp

theorem collectFields_mem {t : GoType} {tagKey : String} {base : List Nat}
    {parent : List String} {e : fieldInfo}
    (he : e ∈ collectFields t tagKey base parent) :
    ∃ cc, cc ≠ [] ∧ chainIncl tagKey t cc = true ∧
      e.offset = base ++ chainOff cc ∧
      e.pathPtr = parent ++ chainNames tagKey t cc :=
  collectFields_mem_aux (sizeOf t) t tagKey base parent e le_rfl he

theorem chain_mem {tagKey : String} :
    ∀ (cc : List Nat) (t : GoType) (base : List Nat) (parent : List String),
      cc ≠ [] → chainIncl tagKey t cc = true →
      ({ pathPtr := parent ++ chainNames tagKey t cc,
         offset := base ++ chainOff cc } : fieldInfo)
        ∈ collectFields t tagKey base parent := by
  intro cc
  induction cc with
  | nil => intro t base parent hcc _; exact absurd rfl hcc
  | cons j c ihc =>
      intro t base parent _ hincl
      cases t with
      | pathRef => simp [chainIncl] at hincl
      | prim s => simp [chainIncl] at hincl
      | iface s => simp [chainIncl] at hincl
      | strct fs =>
          obtain ⟨f, hget, hinc, hcase⟩ := chainIncl_cons hincl
          rw [collectFields]
          cases hcase with
          | inl hnil =>
              subst hnil
              rw [chainNames_cons hget]
              have hmem := collectFieldsList_mem_top hget hinc 0 base parent
              cases hnv : nestedValue f.type with
              | some vt => simpa [chainOff, chainNames_nil] using hmem
              | none => simpa [chainOff, chainNames_nil] using hmem
          | inr hex =>
              obtain ⟨hcne, vt, hnv, hrec⟩ := hex
              cases c with
              | nil => exact absurd rfl hcne
              | cons k cs =>
                  rw [chainNames_cons hget, hnv]
                  have hm := ihc vt (base ++ [0 + j, 2])
                    (parent ++ [effName tagKey f]) (by simp) hrec
                  have hlift := collectFieldsList_mem_nested hget hinc hnv
                    0 base parent hm
                  simpa [chainOff, List.append_assoc] using hlift

theorem collectFields_offset_det {t : GoType} {tagKey : String}
    {base : List Nat} {parent : List String} {e1 e2 : fieldInfo}
    (h1 : e1 ∈ collectFields t tagKey base parent)
    (h2 : e2 ∈ collectFields t tagKey base parent)
    (hoff : e1.offset = e2.offset) : e1.pathPtr = e2.pathPtr := by
  obtain ⟨c1, hc1, hi1, ho1, hp1⟩ := collectFields_mem h1
  obtain ⟨c2, hc2, hi2, ho2, hp2⟩ := collectFields_mem h2
  rw [ho1, ho2] at hoff
  simp only [List.append_cancel_left_eq] at hoff
  have hcc := chainOff_inj c1 c2 hc1 hc2 hoff
  rw [hp1, hp2, hcc]

theorem chain_not_under_excluded {tagKey : String} :
    ∀ (c0 : List Nat) (t : GoType) {fs' : List GoField} {f : GoField} {j : Nat},
      reachesB tagKey t c0 = true →
      structAt t c0 = some (.strct fs') →
      fs'.get? j = some f →
      includedB tagKey f = false →
      ∀ (cc : List Nat), cc ≠ [] → chainIncl tagKey t cc = true →
        ∀ (suf : List Nat), chainOff cc ≠ evenBase c0 ++ j :: suf := by
  intro c0
  induction c0 with
  | nil =>
      intro t fs' f j _ hstruct hget hexcl cc hcc hincl suf heq
      simp only [structAt] at hstruct
      injection hstruct with ht
      subst ht
      cases cc with
      | nil => exact hcc rfl
      | cons j1 c1 =>
          have hhead : j1 = j := by
            cases c1 with
            | nil =>
                simp only [chainOff, evenBase, List.nil_append] at heq
                exact (List.cons.injEq _ _ _ _ ▸ heq).1
            | cons k1 c1' =>
                simp only [chainOff, evenBase, List.nil_append] at heq
                exact (List.cons.injEq _ _ _ _ ▸ heq).1
          subst hhead
          obtain ⟨f1, hget1, hinc1, _⟩ := chainIncl_cons hincl
          rw [hget] at hget1
          injection hget1 with hf
          rw [hf] at hexcl
          rw [hinc1] at hexcl
          cases hexcl
  | cons a c0' ih =>
      intro t fs' f j hreach hstruct hget hexcl cc hcc hincl suf heq
      cases t with
      | pathRef => simp [reachesB] at hreach
      | prim s => simp [reachesB] at hreach
      | iface s => simp [reachesB] at hreach
      | strct fs =>
          obtain ⟨fa, vta, hgeta, hinca, hnva, hreach'⟩ := reachesB_cons hreach
          rw [structAt_cons hgeta hnva] at hstruct
          cases cc with
          | nil => exact hcc rfl
          | cons j1 c1 =>
              cases c1 with
              | nil =>
                  simp only [chainOff, evenBase] at heq
                  injection heq with h1 h2
                  simp at h2
              | cons k1 c1' =>
                  simp only [chainOff, evenBase] at heq
                  injection heq with h1 h2
                  injection h2 with _ h3
                  subst h1
                  obtain ⟨f1, hget1, hinc1, hcase⟩ := chainIncl_cons hincl
                  rw [hgeta] at hget1
                  injection hget1 with hf1
                  subst hf1
                  cases hcase with
                  | inl hne => cases hne
                  | inr hex =>
                      obtain ⟨_, vt1, hnv1, hincl1⟩ := hex
                      rw [hnva] at hnv1
                      injection hnv1 with hvt
                      subst hvt
                      exact ih vta hreach' hstruct hget hexcl (k1 :: c1')
                        (by simp) hincl1 suf h3

theorem cacheLookup_insert (typeID : Nat) (sch : schema) (c : Cache) :
    cacheLookup (cacheInsert typeID sch c) typeID = some sch := by
  simp [cacheLookup, cacheInsert, List.find?]

theorem linked_memory_spec {t : GoType} {tagKey : String} {typeID : Nat}
    {cache cache1 : Cache} {m : Memory} {b : Bool} {m1 : Memory}
    (hload : LoadLink t tagKey typeID cache = .ok (none, cache1))
    (hlink : Link cache1 typeID m = (b, m1)) :
    b = true ∧
    m1 = linkFields (collectFields t tagKey [] []) m ∧
    ∃ fs, t = .strct fs := by
  cases t with
  | iface s => simp [LoadLink, reflectTypeOfZero] at hload
  | pathRef => simp [LoadLink, reflectTypeOfZero] at hload
  | prim s => simp [LoadLink, reflectTypeOfZero] at hload
  | strct fs =>
      simp only [LoadLink, reflectTypeOfZero] at hload
      injection hload with hpair
      have hc1 : cache1 =
          cacheInsert typeID
            { fields := collectFields (.strct fs) tagKey [] [],
              TagKey := tagKey } cache := by
        have := congrArg Prod.snd hpair
        simpa using this.symm
      subst hc1
      rw [Link, cacheLookup_insert] at hlink
      injection hlink with hb hm
      exact ⟨hb.symm, hm.symm, fs, rfl⟩

theorem linkFields_path_det {t : GoType} {tagKey : String} {base : List Nat}
    {parent : List String} {m : Memory} {e : fieldInfo}
    (he : e ∈ collectFields t tagKey base parent) :
    (linkFields (collectFields t tagKey base parent) m e.offset).path =
      some e.pathPtr := by
  obtain ⟨p, hp⟩ := lastWriteAt_isSome he rfl
  obtain ⟨e', he', hoff', hpath'⟩ := lastWriteAt_mem hp
  rw [linkFields_apply, hp]
  rw [← hpath', collectFields_offset_det he' he hoff']

theorem linkFields_not_mem {l : List fieldInfo} {m : Memory} {a : List Nat}
    (h : ∀ e ∈ l, e.offset ≠ a) : linkFields l m a = m a := by
  rw [linkFields_apply, lastWriteAt_eq_none h]

theorem linkFields_parentPath (l : List fieldInfo) (m : Memory) (a : List Nat) :
    (linkFields l m a).parentPath = (m a).parentPath := by
  rw [linkFields_apply]

theorem wellNamedFieldsB_get {fs : List GoField} {j : Nat} {f : GoField}
    (hw : wellNamedFieldsB fs = true) (hget : fs.get? j = some f) :
    f.name ≠ "" ∧ GoType.wellNamedB f.type = true := by
  induction fs generalizing j with
  | nil => cases j <;> cases hget
  | cons g rest ih =>
      rw [wellNamedFieldsB] at hw
      simp only [Bool.and_eq_true, bne_iff_ne, ne_eq] at hw
      cases j with
      | zero =>
          simp only [List.get?] at hget
          injection hget with hg
          subst hg
          exact ⟨hw.1.1, hw.1.2⟩
      | succ j' =>
          simp only [List.get?] at hget
          exact ih hw.2 hget

theorem wellNamedB_nestedValue {ty vt : GoType}
    (hnv : nestedValue ty = some vt) (hw : GoType.wellNamedB ty = true) :
    GoType.wellNamedB vt = true := by
  match ty with
  | .pathRef => simp [nestedValue] at hnv
  | .prim s => simp [nestedValue] at hnv
  | .iface s => simp [nestedValue] at hnv
  | .strct [] => simp [nestedValue] at hnv
  | .strct [f0] => simp [nestedValue] at hnv
  | .strct [f0, f1] => simp [nestedValue] at hnv
  | .strct (f0 :: f1 :: f2 :: rest) =>
      simp only [nestedValue] at hnv
      split at hnv
      · split at hnv
        · injection hnv with hvt
          rw [GoType.wellNamedB] at hw
          have hf2 : (f0 :: f1 :: f2 :: rest).get? 2 = some f2 := rfl
          have := (wellNamedFieldsB_get hw hf2).2
          rename_i hty
          rw [hty] at this
          rw [← hvt]
          exact this
        · cases hnv
      · cases hnv

theorem effName_ne_empty {tagKey : String} {f : GoField}
    (h : f.name ≠ "") : effName tagKey f ≠ "" := by
  simp only [effName]
  by_cases hp : tagPrimary (tagGet f.tag tagKey) = ""
  · rw [if_pos hp]; exact h
  · rw [if_neg hp]; exact hp

theorem chainNames_last {tagKey : String} :
    ∀ (cc : List Nat) (t : GoType), GoType.wellNamedB t = true →
      chainIncl tagKey t cc = true → cc ≠ [] →
      ∃ pre nm, chainNames tagKey t cc = pre ++ [nm] ∧ nm ≠ "" := by
  intro cc
  induction cc with
  | nil => intro t _ _ hcc; exact absurd rfl hcc
  | cons j c ihc =>
      intro t hw hincl _
      cases t with
      | pathRef => simp [chainIncl] at hincl
      | prim s => simp [chainIncl] at hincl
      | iface s => simp [chainIncl] at hincl
      | strct fs =>
          obtain ⟨f, hget, hinc, hcase⟩ := chainIncl_cons hincl
          have hwf : GoType.wellNamedB (.strct fs) = true := hw
          rw [GoType.wellNamedB] at hwf
          obtain ⟨hname, hwty⟩ := wellNamedFieldsB_get hwf hget
          rw [chainNames_cons hget]
          cases hcase with
          | inl hnil =>
              subst hnil
              refine ⟨[], effName tagKey f, ?_, effName_ne_empty hname⟩
              cases hnv : nestedValue f.type <;> simp [chainNames_nil]
          | inr hex =>
              obtain ⟨hcne, vt, hnv, hincl'⟩ := hex
              obtain ⟨pre, nm, hnames, hnm⟩ :=
                ihc vt (wellNamedB_nestedValue hnv hwty) hincl' hcne
              simp only [hnv]
              rw [hnames]
              exact ⟨effName tagKey f :: pre, nm, by simp, hnm⟩

theorem chainNames_concat {tagKey : String} :
    ∀ (c : List Nat) (t : GoType) (j : Nat),
      chainIncl tagKey t (c ++ [j]) = true →
      ∃ nm, chainNames tagKey t (c ++ [j]) = chainNames tagKey t c ++ [nm] := by
  intro c
  induction c with
  | nil =>
      intro t j hincl
      cases t with
      | pathRef => simp [chainIncl] at hincl
      | prim s => simp [chainIncl] at hincl
      | iface s => simp [chainIncl] at hincl
      | strct fs =>
          obtain ⟨f, hget, hinc, _⟩ := chainIncl_cons (by simpa using hincl)
          refine ⟨effName tagKey f, ?_⟩
          rw [List.nil_append, chainNames_cons hget, chainNames_nil]
          cases hnv : nestedValue f.type <;> simp [chainNames_nil]
  | cons a c' ih =>
      intro t j hincl
      cases t with
      | pathRef => simp [chainIncl] at hincl
      | prim s => simp [chainIncl] at hincl
      | iface s => simp [chainIncl] at hincl
      | strct fs =>
          have hincl2 : chainIncl tagKey (.strct fs) (a :: (c' ++ [j])) = true := by
            simpa using hincl
          obtain ⟨f, hget, hinc, hcase⟩ := chainIncl_cons hincl2
          cases hcase with
          | inl hnil => simp at hnil
          | inr hex =>
              obtain ⟨_, vt, hnv, hincl'⟩ := hex
              obtain ⟨nm, hnames⟩ := ih vt j hincl'
              refine ⟨nm, ?_⟩
              have e1 : (a :: c') ++ [j] = a :: (c' ++ [j]) := by simp
              rw [e1, chainNames_cons hget]
              simp only [hnv]
              rw [hnames, chainNames_cons hget]
              simp only [hnv]
              simp

theorem linkFields_value (l : List fieldInfo) (m : Memory) (a : List Nat) :
    (linkFields l m a).value = (m a).value := by
  rw [linkFields_apply]

/-- C5: `Link` on an instance whose type has no cached schema returns
false and leaves the memory unchanged; the model is a total function,
so the failure is a boolean result, never a panic. -/
theorem C5_link_unregistered_fails (c : Cache) (typeID : Nat) (m : Memory)
    (h : cacheLookup c typeID = none) : Link c typeID m = (false, m) := by
  simp [Link, h]

theorem C5_witness :
    cacheLookup ([] : Cache) 0 = none ∧
      Link ([] : Cache) 0 freshMemory = (false, freshMemory) :=
  ⟨rfl, C5_link_unregistered_fails ([] : Cache) 0 freshMemory rfl⟩

/-- C10: a failing `Link` call performs no memory write at all: it
returns false with every slot of the instance (path, parentPath and
payload alike) unchanged. -/
theorem C10_failed_link_no_write (c : Cache) (typeID : Nat) (m : Memory)
    (h : cacheLookup c typeID = none) :
    (Link c typeID m).1 = false ∧ ∀ a, (Link c typeID m).2 a = m a := by
  simp [Link, h]

theorem C10_witness :
    cacheLookup ([] : Cache) 5 = none ∧
      (Link ([] : Cache) 5 exMemory).1 = false ∧
      (Link ([] : Cache) 5 exMemory).2 [3] = exMemory [3] :=
  ⟨rfl, (C10_failed_link_no_write ([] : Cache) 5 exMemory rfl).1,
    (C10_failed_link_no_write ([] : Cache) 5 exMemory rfl).2 [3]⟩

/-- C6 at the failing input: `LoadLink` instantiated at an interface
type panics (`reflect.TypeOf` of the nil interface zero value is nil and
`Kind()` dereferences it) instead of returning the configuration error;
at a non-struct non-interface type it does return the error and at a
struct type with no matching fields it returns nil, caching the empty
schema. -/
theorem C6_loadLink_interface_panics :
    LoadLink (.iface "any") "json" 0 [] =
      .panics "runtime error: invalid memory address or nil pointer dereference" ∧
    LoadLink (.prim "int") "json" 0 [] =
      .ok (some "CacheSchema: T must be a struct type", []) ∧
    LoadLink (.strct []) "json" 0 [] =
      .ok (none, [(0, { fields := [], TagKey := "json" })]) := by
  refine ⟨rfl, rfl, ?_⟩
  simp [LoadLink, reflectTypeOfZero, cacheInsert, collectFields,
        collectFieldsList]

/-- C8 counterexample: a non-nil empty slice has length 0, so
`FieldSlice.NoValue` returns true on it, although it is not equal to the
zero value (the nil slice) of its type. -/
theorem C8_counterexample_empty_slice :
    fieldSliceNoValue (some ([] : List Nat)) = true ∧
      some ([] : List Nat) ≠ goSliceZero :=
  ⟨rfl, by simp [goSliceZero]⟩

/-- C8 amended: for the comparable wrapper `Field`, `NoValue`/`IsZero`
hold exactly when the value equals the type's zero value; for
`FieldSlice`, `NoValue` and `IsZero` hold exactly when the slice has
length zero — the nil zero value qualifies, but so does every non-nil
empty slice, so for `FieldSlice` zero-value equality is sufficient but
not necessary. -/
theorem C8_noValue_zero_amended {α : Type} [DecidableEq α] (v zero : α)
    {E : Type} (s : GoSlice E) :
    (fieldNoValue v zero = true ↔ v = zero) ∧
    fieldIsZero v zero = fieldNoValue v zero ∧
    (fieldSliceNoValue s = true ↔ goSliceLen s = 0) ∧
    fieldSliceIsZero s = fieldSliceNoValue s ∧
    fieldSliceNoValue (@goSliceZero E) = true := by
  refine ⟨?_, rfl, ?_, rfl, rfl⟩
  · simp [fieldNoValue]
  · simp [fieldSliceNoValue]

theorem C8_witness :
    (fieldNoValue (3 : Nat) 0 = true ↔ (3 : Nat) = 0) ∧
    (fieldSliceNoValue (some ([] : List Nat)) = true ↔
      goSliceLen (some ([] : List Nat)) = 0) :=
  ⟨(C8_noValue_zero_amended (3 : Nat) 0 (some ([] : List Nat))).1,
   (C8_noValue_zero_amended (3 : Nat) 0 (some ([] : List Nat))).2.2.1⟩

/-- C7: linking is idempotent per instance: with the type registered, a
second `Link` on the same instance succeeds and leaves every field's
`Name()` and `Path()` exactly as after the first call. -/
theorem C7_link_idempotent {c : Cache} {typeID : Nat} {sch : schema}
    {m : Memory} {b1 b2 : Bool} {m1 m2 : Memory}
    (hreg : cacheLookup c typeID = some sch)
    (h1 : Link c typeID m = (b1, m1)) (h2 : Link c typeID m1 = (b2, m2)) :
    b2 = true ∧ ∀ a, NameAt m2 a = NameAt m1 a ∧ PathAt m2 a = PathAt m1 a := by
  simp only [Link, hreg] at h1 h2
  injection h1 with hb1 hm1
  injection h2 with hb2 hm2
  subst hm1
  subst hm2
  refine ⟨hb2.symm, ?_⟩
  intro a
  have hslot : linkFields sch.fields (linkFields sch.fields m) a =
      linkFields sch.fields m a := by
    cases hlw : lastWriteAt sch.fields a with
    | some p => simp [linkFields_apply, hlw]
    | none => simp [linkFields_apply, hlw]
  constructor
  · simp only [NameAt, hslot]
  · simp only [PathAt, hslot]

theorem C7_witness :
    cacheLookup exCache 1 = some exSchema ∧
    NameAt (Link exCache 1 (Link exCache 1 freshMemory).2).2 [0] =
      NameAt (Link exCache 1 freshMemory).2 [0] ∧
    PathAt (Link exCache 1 (Link exCache 1 freshMemory).2).2 [0] =
      PathAt (Link exCache 1 freshMemory).2 [0] :=
  ⟨rfl,
   ((@C7_link_idempotent exCache 1 exSchema freshMemory
      (Link exCache 1 freshMemory).1
      (Link exCache 1 (Link exCache 1 freshMemory).2).1
      (Link exCache 1 freshMemory).2
      (Link exCache 1 (Link exCache 1 freshMemory).2).2
      rfl rfl rfl).2 [0]).1,
   ((@C7_link_idempotent exCache 1 exSchema freshMemory
      (Link exCache 1 freshMemory).1
      (Link exCache 1 (Link exCache 1 freshMemory).2).1
      (Link exCache 1 freshMemory).2
      (Link exCache 1 (Link exCache 1 freshMemory).2).2
      rfl rfl rfl).2 [0]).2⟩

theorem collect_OneFieldTy :
    collectFields OneFieldTy "json" [] [] =
      [{ pathPtr := ["f"], offset := [0] }] := by
  simp [OneFieldTy, collectFields, collectFieldsList, isWrapperShape, tagPrimary, tagGet,
        effName, nestedValue, GoField.exported, GoField.tag, GoField.name,
        GoField.type, wrapTy]

theorem collect_SampleTy :
    collectFields SampleTy "json" [] [] =
      [{ pathPtr := ["a"], offset := [0] }] := by
  simp [SampleTy, collectFields, collectFieldsList, isWrapperShape, tagPrimary, tagGet,
        effName, nestedValue, GoField.exported, GoField.tag, GoField.name,
        GoField.type, wrapTy]

theorem collect_UntaggedTy :
    collectFields UntaggedTy "json" [] [] =
      [{ pathPtr := ["J"], offset := [0] }] := by
  simp [UntaggedTy, collectFields, collectFieldsList, isWrapperShape, tagPrimary, tagGet,
        effName, nestedValue, GoField.exported, GoField.tag, GoField.name,
        GoField.type, wrapTy]

theorem collect_Level1Ty :
    collectFields Level1Ty "json" [] [] =
      [{ pathPtr := ["top"], offset := [0] },
       { pathPtr := ["top", "mid"], offset := [0, 2, 0] },
       { pathPtr := ["top", "mid", "deep"], offset := [0, 2, 0, 2, 0] }] := by
  simp [Level1Ty, Level2Ty, Level3Ty, collectFields, collectFieldsList, isWrapperShape, tagPrimary, tagGet,
        effName, nestedValue, GoField.exported, GoField.tag, GoField.name,
        GoField.type, wrapTy]

theorem collect_DashNestedTy :
    collectFields DashNestedTy "json" [] [] =
      [{ pathPtr := ["a"], offset := [0] }] := by
  simp [DashNestedTy, Level3Ty, collectFields, collectFieldsList, isWrapperShape, tagPrimary, tagGet,
        effName, nestedValue, GoField.exported, GoField.tag, GoField.name,
        GoField.type, wrapTy]

/-- C3 (code bug): `LinkWithPath` ignores the caller-supplied path.
After registering the one-field struct and calling `LinkWithPath` with
the path `["pre"]`, the linked field's `Path()` is `["f"]` — it does not
begin with the supplied path segments — and `FullName(".")` is `"f"`:
the assignment `fp.parentPath = &path` is commented out in the source
(the comment even swallowed the loop's closing brace), so the supplied
path is never stored. -/
theorem C3_linkWithPath_ignores_supplied_path :
    LoadLink OneFieldTy "json" 7 [] = .ok (none, exC3Cache) ∧
    (LinkWithPath exC3Cache 7 ["pre"] freshMemory).1 = true ∧
    PathAt (LinkWithPath exC3Cache 7 ["pre"] freshMemory).2 [0] = some ["f"] ∧
    FullNameAt (LinkWithPath exC3Cache 7 ["pre"] freshMemory).2 [0] "." = "f" ∧
    ¬ PathAt (LinkWithPath exC3Cache 7 ["pre"] freshMemory).2 [0] =
        some ["pre", "f"] := by
  refine ⟨?_, by decide, by decide, by decide, by decide⟩
  simp [LoadLink, reflectTypeOfZero, cacheInsert, exC3Cache, OneFieldTy,
        collectFields, collectFieldsList, isWrapperShape, tagPrimary, tagGet,
        effName, nestedValue, GoField.exported, GoField.tag, GoField.name,
        GoField.type, wrapTy]

theorem fieldNameOp_concat (pre : List String) (nm : String) :
    fieldNameOp (some (pre ++ [nm])) = nm := by
  simp [fieldNameOp]

/-- C9: an exported wrapper field whose tag under the key is absent or
has an empty primary component falls back to its declared field name:
after registration and linking, `Name()` on that field returns the
declared Go field name. -/
theorem C9_untagged_field_uses_declared_name {fs : List GoField}
    {tagKey : String} {typeID : Nat} {cache cache1 : Cache} {m : Memory}
    {b : Bool} {m1 : Memory} {j : Nat} {f : GoField}
    (hload : LoadLink (.strct fs) tagKey typeID cache = .ok (none, cache1))
    (hlink : Link cache1 typeID m = (b, m1))
    (hget : fs.get? j = some f)
    (hexp : f.exported = true)
    (hwrap : isWrapperShape f.type = true)
    (hpri : tagPrimary (tagGet f.tag tagKey) = "") :
    b = true ∧ NameAt m1 [j] = f.name := by
  obtain ⟨hb, hm1, _⟩ := linked_memory_spec hload hlink
  subst hm1
  refine ⟨hb, ?_⟩
  have hinc : includedB tagKey f = true := by
    simp [includedB, hexp, hwrap, hpri]
  have hincl : chainIncl tagKey (.strct fs) [j] = true :=
    chainIncl_build hget hinc (Or.inl rfl)
  have hmem := chain_mem [j] (.strct fs) [] [] (by simp) hincl
  have hslot := @linkFields_path_det (.strct fs) tagKey [] [] m _ hmem
  simp only [List.nil_append] at hslot
  have hoffeq : chainOff [j] = [j] := by simp [chainOff]
  rw [hoffeq] at hslot
  have hnames : chainNames tagKey (.strct fs) [j] = [f.name] := by
    rw [chainNames_cons hget]
    have heff : effName tagKey f = f.name := by simp [effName, hpri]
    cases hnv : nestedValue f.type <;> simp [chainNames_nil, heff]
  rw [hnames] at hslot
  rw [NameAt, hslot]
  exact fieldNameOp_concat [] f.name

theorem C9_witness :
    LoadLink UntaggedTy "json" 9 [] = .ok (none, exC9Cache) ∧
    NameAt (Link exC9Cache 9 freshMemory).2 [0] = "J" := by
  have hload : LoadLink UntaggedTy "json" 9 [] = .ok (none, exC9Cache) := by
    simp [LoadLink, reflectTypeOfZero, cacheInsert, exC9Cache, UntaggedTy,
          collectFields, collectFieldsList, isWrapperShape, tagPrimary, tagGet,
          effName, nestedValue, GoField.exported, GoField.tag, GoField.name,
          GoField.type, wrapTy]
  refine ⟨hload, ?_⟩
  have happ := @C9_untagged_field_uses_declared_name
    [ .mk "J" true [] (wrapTy (.prim "int")) ] "json" 9 [] exC9Cache
    freshMemory (Link exC9Cache 9 freshMemory).1 (Link exC9Cache 9 freshMemory).2
    0 (.mk "J" true [] (wrapTy (.prim "int")))
    hload rfl rfl rfl (by decide) rfl
  exact happ.2

/-- C2: after registration and linking of a fresh instance, the
`FullName(sep)` of the wrapper field reached by any included chain
`c ++ [j]` is the enclosing (parent) segments `chainNames c` followed by
the field's own segment, joined by `sep`; when the supplied separator is
empty the separator used is `"."` (`DefaulyFullNameSeparator`); and a
field whose path slot is nil (unlinked) has `FullName = ""` whatever the
separator. -/
theorem C2_fullName_joins_segments {fs : List GoField} {tagKey : String}
    {typeID : Nat} {cache cache1 : Cache} {m : Memory} {b : Bool}
    {m1 : Memory}
    (hload : LoadLink (.strct fs) tagKey typeID cache = .ok (none, cache1))
    (hm : Unlinked m)
    (hlink : Link cache1 typeID m = (b, m1)) :
    b = true ∧
    (∀ c j, chainIncl tagKey (.strct fs) (c ++ [j]) = true →
      ∃ own, (m1 (chainOff (c ++ [j]))).path =
          some (chainNames tagKey (.strct fs) c ++ [own]) ∧
        ∀ sep, FullNameAt m1 (chainOff (c ++ [j])) sep =
          goJoin (if sep = "" then DefaulyFullNameSeparator else sep)
            (chainNames tagKey (.strct fs) c ++ [own])) ∧
    (∀ (mm : Memory) a sep, (mm a).path = none → FullNameAt mm a sep = "") := by
  obtain ⟨hb, hm1, _⟩ := linked_memory_spec hload hlink
  subst hm1
  refine ⟨hb, ?_, ?_⟩
  · intro c j hincl
    obtain ⟨own, hown⟩ := chainNames_concat c (.strct fs) j hincl
    have hmem := chain_mem (c ++ [j]) (.strct fs) [] [] (by simp) hincl
    have hslot := @linkFields_path_det (.strct fs) tagKey [] [] m _ hmem
    simp only [List.nil_append] at hslot
    refine ⟨own, by rw [hslot, hown], ?_⟩
    intro sep
    have hpar := linkFields_parentPath
      (collectFields (.strct fs) tagKey [] []) m (chainOff (c ++ [j]))
    rw [(hm (chainOff (c ++ [j]))).2] at hpar
    rw [FullNameAt, hslot, hown, hpar]
    simp only [fieldFullNameOp]
  · intro mm a sep hnone
    rw [FullNameAt, hnone]
    simp only [fieldFullNameOp]

theorem C2_witness :
    Unlinked freshMemory ∧
    LoadLink Level1Ty "json" 2 [] = .ok (none, exC2Cache) ∧
    chainIncl "json" Level1Ty [0, 0, 0] = true ∧
    (Link exC2Cache 2 freshMemory).1 = true ∧
    FullNameAt (Link exC2Cache 2 freshMemory).2 [0, 2, 0, 2, 0] "." =
      "top.mid.deep" ∧
    FullNameAt (Link exC2Cache 2 freshMemory).2 [0, 2, 0, 2, 0] "" =
      "top.mid.deep" ∧
    FullNameAt freshMemory [9] "." = "" := by
  have hunl : Unlinked freshMemory := fun a => ⟨rfl, rfl⟩
  have hload : LoadLink Level1Ty "json" 2 [] = .ok (none, exC2Cache) := by
    simp [LoadLink, reflectTypeOfZero, cacheInsert, exC2Cache, Level1Ty,
          Level2Ty, Level3Ty, collectFields, collectFieldsList, isWrapperShape,
          tagPrimary, tagGet, effName, nestedValue, GoField.exported,
          GoField.tag, GoField.name, GoField.type, wrapTy]
  have happ := @C2_fullName_joins_segments
    [ .mk "Top" true [("json", "top")] (wrapTy Level2Ty) ] "json" 2 []
    exC2Cache freshMemory (Link exC2Cache 2 freshMemory).1
    (Link exC2Cache 2 freshMemory).2 hload hunl rfl
  refine ⟨hunl, hload, by decide, happ.1, ?_, ?_, ?_⟩
  · obtain ⟨own, hslot, hfull⟩ := happ.2.1 [0, 0] 0 (by decide)
    have e0 : ([0, 0] ++ [0] : List Nat) = [0, 0, 0] := rfl
    rw [e0] at hslot hfull
    have hpath : ((Link exC2Cache 2 freshMemory).2 (chainOff [0, 0, 0])).path =
        some ["top", "mid", "deep"] := by decide
    rw [hpath] at hslot
    have hnames : chainNames "json"
        (.strct [ .mk "Top" true [("json", "top")] (wrapTy Level2Ty) ]) [0, 0] =
        ["top", "mid"] := by decide
    rw [hnames] at hslot
    have hown : own = "deep" := by
      have hh := Option.some.inj hslot
      simpa using hh.symm
    have hfull2 := hfull "."
    rw [hown, hnames] at hfull2
    have hoffeq : chainOff [0, 0, 0] = [0, 2, 0, 2, 0] := by decide
    rw [hoffeq] at hfull2
    rw [hfull2]
    decide
  · obtain ⟨own, hslot, hfull⟩ := happ.2.1 [0, 0] 0 (by decide)
    have e0 : ([0, 0] ++ [0] : List Nat) = [0, 0, 0] := rfl
    rw [e0] at hslot hfull
    have hpath : ((Link exC2Cache 2 freshMemory).2 (chainOff [0, 0, 0])).path =
        some ["top", "mid", "deep"] := by decide
    rw [hpath] at hslot
    have hnames : chainNames "json"
        (.strct [ .mk "Top" true [("json", "top")] (wrapTy Level2Ty) ]) [0, 0] =
        ["top", "mid"] := by decide
    rw [hnames] at hslot
    have hown : own = "deep" := by
      have hh := Option.some.inj hslot
      simpa using hh.symm
    have hfull2 := hfull ""
    rw [hown, hnames] at hfull2
    have hoffeq : chainOff [0, 0, 0] = [0, 2, 0, 2, 0] := by decide
    rw [hoffeq] at hfull2
    rw [hfull2]
    decide
  · exact happ.2.2 freshMemory [9] "." rfl

/-- C1: after registration and a successful `Link` of a fresh instance,
every collected (included) wrapper field reports a non-empty `Name()`,
and every excluded field — unexported or `-`-tagged, at any level the
scan reaches — keeps a nil path slot and reports `Name() = ""`. -/
theorem C1_included_named_excluded_unnamed {fs : List GoField}
    {tagKey : String} {typeID : Nat} {cache cache1 : Cache} {m : Memory}
    {b : Bool} {m1 : Memory}
    (hw : GoType.wellNamedB (.strct fs) = true)
    (hload : LoadLink (.strct fs) tagKey typeID cache = .ok (none, cache1))
    (hm : Unlinked m)
    (hlink : Link cache1 typeID m = (b, m1)) :
    b = true ∧
    (∀ e ∈ collectFields (.strct fs) tagKey [] [], NameAt m1 e.offset ≠ "") ∧
    (∀ c0 fs' f j, reachesB tagKey (.strct fs) c0 = true →
      structAt (.strct fs) c0 = some (.strct fs') →
      fs'.get? j = some f →
      (f.exported = false ∨ tagPrimary (tagGet f.tag tagKey) = "-") →
      (m1 (evenBase c0 ++ [j])).path = none ∧
      NameAt m1 (evenBase c0 ++ [j]) = "") := by
  obtain ⟨hb, hm1, _⟩ := linked_memory_spec hload hlink
  subst hm1
  refine ⟨hb, ?_, ?_⟩
  · intro e he
    have hslot := @linkFields_path_det (.strct fs) tagKey [] [] m e he
    obtain ⟨cc, hcc, hincl, hoff, hpath⟩ := collectFields_mem he
    obtain ⟨pre, nm, hnames, hnm⟩ := chainNames_last cc (.strct fs) hw hincl hcc
    rw [NameAt, hslot, hpath, hnames]
    simp only [List.nil_append]
    rw [fieldNameOp_concat]
    exact hnm
  · intro c0 fs' f j hreach hstruct hget hexcl
    have hincF : includedB tagKey f = false := by
      cases hexcl with
      | inl h => simp [includedB, h]
      | inr h => simp [includedB, h]
    have hnot : ∀ e ∈ collectFields (.strct fs) tagKey [] [],
        e.offset ≠ evenBase c0 ++ [j] := by
      intro e he heq
      obtain ⟨cc, hcc, hincl, hoff, _⟩ := collectFields_mem he
      rw [hoff] at heq
      simp only [List.nil_append] at heq
      exact chain_not_under_excluded c0 (.strct fs) hreach hstruct hget hincF
        cc hcc hincl [] heq
    have hsame := @linkFields_not_mem (collectFields (.strct fs) tagKey [] [])
      m (evenBase c0 ++ [j]) hnot
    refine ⟨?_, ?_⟩
    · rw [hsame]
      exact (hm (evenBase c0 ++ [j])).1
    · rw [NameAt, hsame, (hm (evenBase c0 ++ [j])).1]
      rfl

theorem C1_witness :
    GoType.wellNamedB SampleTy = true ∧
    Unlinked freshMemory ∧
    LoadLink SampleTy "json" 1 [] = .ok (none, exC1Cache) ∧
    (Link exC1Cache 1 freshMemory).1 = true ∧
    ¬ NameAt (Link exC1Cache 1 freshMemory).2 [0] = "" ∧
    ((Link exC1Cache 1 freshMemory).2 [1]).path = none ∧
    NameAt (Link exC1Cache 1 freshMemory).2 [1] = "" ∧
    ((Link exC1Cache 1 freshMemory).2 [2]).path = none ∧
    NameAt (Link exC1Cache 1 freshMemory).2 [2] = "" := by
  have hw : GoType.wellNamedB SampleTy = true := by
    simp [SampleTy, wrapTy, GoType.wellNamedB, wellNamedFieldsB,
          GoField.name, GoField.type]
  have hunl : Unlinked freshMemory := fun a => ⟨rfl, rfl⟩
  have hload : LoadLink SampleTy "json" 1 [] = .ok (none, exC1Cache) := by
    simp [LoadLink, reflectTypeOfZero, cacheInsert, exC1Cache, SampleTy,
          collectFields, collectFieldsList, isWrapperShape, tagPrimary, tagGet,
          effName, nestedValue, GoField.exported, GoField.tag, GoField.name,
          GoField.type, wrapTy]
  have happ := @C1_included_named_excluded_unnamed
    [ .mk "A" true [("json", "a")] (wrapTy (.prim "int")),
      .mk "L" true [("json", "-")] (wrapTy (.prim "int")),
      .mk "m" false [] (wrapTy (.prim "int")) ] "json" 1 [] exC1Cache
    freshMemory (Link exC1Cache 1 freshMemory).1 (Link exC1Cache 1 freshMemory).2
    hw hload hunl rfl
  have hmemA : ({ pathPtr := ["a"], offset := [0] } : fieldInfo) ∈
      collectFields SampleTy "json" [] [] := by
    rw [collect_SampleTy]
    exact List.mem_singleton.mpr rfl
  have hL := happ.2.2 [] _ (.mk "L" true [("json", "-")] (wrapTy (.prim "int")))
    1 rfl rfl rfl (Or.inr (by decide))
  have hM := happ.2.2 [] _ (.mk "m" false [] (wrapTy (.prim "int")))
    2 rfl rfl rfl (Or.inl rfl)
  exact ⟨hw, hunl, hload, happ.1, happ.2.1 _ hmemA, hL.1, hL.2, hM.1, hM.2⟩

/-- C4: opting a field out with the `-` tag is total: wherever the scan
reaches (chain `c0`), a field whose tag primary component is `-` yields
no descriptor at its own address nor at any address inside its payload
(the nested payload is never scanned), and after linking a fresh
instance its path slot — and every slot under its payload — stays nil,
so `Name() = ""` and `Path() = nil`. -/
theorem C4_dash_optout_is_total {fs fs' : List GoField} {tagKey : String}
    {typeID : Nat} {cache cache1 : Cache} {m : Memory} {b : Bool}
    {m1 : Memory} {c0 : List Nat} {f : GoField} {j : Nat}
    (hload : LoadLink (.strct fs) tagKey typeID cache = .ok (none, cache1))
    (hm : Unlinked m)
    (hlink : Link cache1 typeID m = (b, m1))
    (hreach : reachesB tagKey (.strct fs) c0 = true)
    (hstruct : structAt (.strct fs) c0 = some (.strct fs'))
    (hget : fs'.get? j = some f)
    (hdash : tagPrimary (tagGet f.tag tagKey) = "-") :
    b = true ∧
    (∀ e ∈ collectFields (.strct fs) tagKey [] [],
       ∀ suf, e.offset ≠ evenBase c0 ++ j :: suf) ∧
    (∀ suf, (m1 (evenBase c0 ++ j :: suf)).path = none) ∧
    NameAt m1 (evenBase c0 ++ [j]) = "" ∧
    PathAt m1 (evenBase c0 ++ [j]) = none := by
  obtain ⟨hb, hm1, _⟩ := linked_memory_spec hload hlink
  subst hm1
  have hincF : includedB tagKey f = false := by simp [includedB, hdash]
  have hnot : ∀ e ∈ collectFields (.strct fs) tagKey [] [],
      ∀ suf, e.offset ≠ evenBase c0 ++ j :: suf := by
    intro e he suf heq
    obtain ⟨cc, hcc, hincl, hoff, _⟩ := collectFields_mem he
    rw [hoff] at heq
    simp only [List.nil_append] at heq
    exact chain_not_under_excluded c0 (.strct fs) hreach hstruct hget hincF
      cc hcc hincl suf heq
  have hsame : ∀ suf,
      linkFields (collectFields (.strct fs) tagKey [] []) m
        (evenBase c0 ++ j :: suf) = m (evenBase c0 ++ j :: suf) := by
    intro suf
    exact @linkFields_not_mem (collectFields (.strct fs) tagKey [] []) m
      (evenBase c0 ++ j :: suf) (fun e he => hnot e he suf)
  have hnil : ∀ suf,
      (linkFields (collectFields (.strct fs) tagKey [] []) m
        (evenBase c0 ++ j :: suf)).path = none := by
    intro suf
    rw [hsame suf]
    exact (hm (evenBase c0 ++ j :: suf)).1
  refine ⟨hb, hnot, hnil, ?_, ?_⟩
  · rw [NameAt, hnil []]
    rfl
  · rw [PathAt, hnil []]
    rfl

theorem C4_witness :
    Unlinked freshMemory ∧
    LoadLink DashNestedTy "json" 4 [] = .ok (none, exC4Cache) ∧
    tagPrimary (tagGet (GoField.tag
      (.mk "B" true [("json", "-")] (wrapTy Level3Ty))) "json") = "-" ∧
    (Link exC4Cache 4 freshMemory).1 = true ∧
    ((Link exC4Cache 4 freshMemory).2 [1]).path = none ∧
    ((Link exC4Cache 4 freshMemory).2 [1, 2, 0]).path = none ∧
    NameAt (Link exC4Cache 4 freshMemory).2 [1] = "" ∧
    PathAt (Link exC4Cache 4 freshMemory).2 [1] = none := by
  have hunl : Unlinked freshMemory := fun a => ⟨rfl, rfl⟩
  have hload : LoadLink DashNestedTy "json" 4 [] = .ok (none, exC4Cache) := by
    simp [LoadLink, reflectTypeOfZero, cacheInsert, exC4Cache, DashNestedTy,
          Level3Ty, collectFields, collectFieldsList, isWrapperShape,
          tagPrimary, tagGet, effName, nestedValue, GoField.exported,
          GoField.tag, GoField.name, GoField.type, wrapTy]
  have happ := @C4_dash_optout_is_total
    [ .mk "A" true [("json", "a")] (wrapTy (.prim "int")),
      .mk "B" true [("json", "-")] (wrapTy Level3Ty) ]
    [ .mk "A" true [("json", "a")] (wrapTy (.prim "int")),
      .mk "B" true [("json", "-")] (wrapTy Level3Ty) ]
    "json" 4 [] exC4Cache freshMemory (Link exC4Cache 4 freshMemory).1
    (Link exC4Cache 4 freshMemory).2 []
    (.mk "B" true [("json", "-")] (wrapTy Level3Ty)) 1
    hload hunl rfl rfl rfl rfl (by decide)
  exact ⟨hunl, hload, by decide, happ.1, happ.2.2.1 [], happ.2.2.1 [2, 0],
    happ.2.2.2.1, happ.2.2.2.2⟩

end Named
